import Mathlib

/- Verification of AutoFP8 (src/quantize.py).

   The file shallowly embeds the quantization pipeline of `quantize.py`:
   the per-tensor FP8 quantization function, the capability-gated GEMM
   dispatch, the three quantized module classes (FP8DynamicLinear,
   FP8StaticLinearQuantizer, FP8StaticLinear) and the three graph-rewrite
   loops of `quantize_weights` / `quantize_activations`.

   Modelling conventions:
   - Tensor values are exact rationals (ℚ).  float32 rounding of scale
     arithmetic is not modelled; the float literal `1e-12` is modelled as
     the exact rational 10⁻¹².
   - The cast `.to(torch.float8_e4m3fn)` is modelled by `castFP8`, a real
     round-to-nearest-even onto the float8_e4m3fn value grid
     (4 exponent bits, 3 mantissa bits, bias 7, max finite value 448,
     subnormal step 2⁻⁹).  The source always clamps to [-448, 448] before
     the cast, so saturation/NaN behaviour of the cast is never exercised.
   - A torch call that raises on its input (aminmax on an empty tensor,
     get_submodule on an unresolvable path) is modelled as `none`.
-/

set_option maxRecDepth 4000

abbrev Tensor := List ℚ
abbrev Mat := List (List ℚ)

/-- Largest finite magnitude of torch.float8_e4m3fn, i.e.
`torch.finfo(torch.float8_e4m3fn).max = 448.0` (and `.min = -448.0`). -/
def fp8Max : ℚ := 448

/-- The epsilon guard `1e-12` of `amax.clamp(min=1e-12)` in
`per_tensor_quantize`, modelled as the exact rational 10⁻¹². -/
def fp8Eps : ℚ := 1 / 10 ^ 12

/-- Round a rational to the nearest integer, ties to even. -/
def rne (q : ℚ) : ℤ :=
  let f := ⌊q⌋
  let r := q - f
  if r < 1 / 2 then f
  else if 1 / 2 < r then f + 1
  else if f % 2 = 0 then f else f + 1

/-- For `x` in the normal range of float8_e4m3fn, the largest `e ∈ [1, 15]`
with `2 ^ (e - 7) ≤ x` (the binade of `x`, in biased form; the thresholds
are the smallest normal magnitude of each binade, `2⁻⁶ … 2⁸`). -/
def binadeExp (x : ℚ) : ℕ :=
  if 256 ≤ x then 15
  else if 128 ≤ x then 14
  else if 64 ≤ x then 13
  else if 32 ≤ x then 12
  else if 16 ≤ x then 11
  else if 8 ≤ x then 10
  else if 4 ≤ x then 9
  else if 2 ≤ x then 8
  else if 1 ≤ x then 7
  else if 1 / 2 ≤ x then 6
  else if 1 / 4 ≤ x then 5
  else if 1 / 8 ≤ x then 4
  else if 1 / 16 ≤ x then 3
  else if 1 / 32 ≤ x then 2
  else 1

/-- Round-to-nearest-even of a nonnegative rational onto the nonnegative
float8_e4m3fn grid (callers pass values already clamped to [0, 448]).
Subnormals and the first normal binade live on the grid of step 2⁻⁹ = 1/512;
the binade `e` has grid step `2 ^ (e - 10) = 2 ^ e / 1024`. -/
def castFP8pos (x : ℚ) : ℚ :=
  if x ≤ 1 / 64 then (rne (x * 512) : ℚ) / 512
  else
    let e := binadeExp x
    (rne (x * 1024 / 2 ^ e) : ℚ) * 2 ^ e / 1024

/-- Model of the cast `.to(torch.float8_e4m3fn)` on already-clamped values. -/
def castFP8 (x : ℚ) : ℚ := if x < 0 then - castFP8pos (-x) else castFP8pos x

/-- Model of `.clamp(min=finfo.min, max=finfo.max)` for float8_e4m3fn. -/
def fp8clamp (q : ℚ) : ℚ := min (max q (-fp8Max)) fp8Max

/-- The absolute maximum computed in `per_tensor_quantize`:
`min_val, max_val = tensor.aminmax(); amax = min_val.abs().max(max_val.abs())`.
Junk value 0 on the empty tensor (where torch's aminmax raises; the
`Option`-valued entry point `per_tensor_quantize` screens that case out). -/
def amaxCore (t : List ℚ) : ℚ :=
  match t with
  | [] => 0
  | x :: xs => max |xs.foldl min x| |xs.foldl max x|

/-- The raw (multiplicative) scale `finfo.max / amax.clamp(min=1e-12)`. -/
def rawScale (t : List ℚ) : ℚ := fp8Max / max (amaxCore t) fp8Eps

/-- Computational core of `per_tensor_quantize` (lines 26-47):
`qweight = (tensor * scale).clamp(min=finfo.min, max=finfo.max).to(float8)`,
returned together with the reciprocal scale `scale.float().reciprocal()`. -/
def ptqCore (t : List ℚ) : List ℚ × ℚ :=
  (t.map fun v => castFP8 (fp8clamp (v * rawScale t)), (rawScale t)⁻¹)

/-- `per_tensor_quantize` from src/quantize.py.  `none` models the exception
torch raises when `aminmax` is applied to an empty tensor. -/
def per_tensor_quantize (t : List ℚ) : Option (List ℚ × ℚ) :=
  match t with
  | [] => none
  | _ :: _ => some (ptqCore t)

/-- `per_tensor_quantize` applied to a weight matrix (the same source
function at matrix shape: `aminmax` ranges over all elements, the scaling
and clamping are elementwise).  Total: a weight of an `nn.Linear` is
nonempty in the modelled domain (torch would raise on an empty weight). -/
def ptqMatCore (w : Mat) : Mat × ℚ :=
  (w.map (List.map fun v => castFP8 (fp8clamp (v * rawScale w.flatten))),
   (rawScale w.flatten)⁻¹)

/-- Dot product (one output feature of `torch.nn.functional.linear`). -/
def dot (a b : List ℚ) : ℚ := (List.zipWith (· * ·) a b).sum

/-- Optional bias addition of the GEMM paths (`bias=None` adds nothing). -/
def addBias (out : Tensor) (bias : Option Tensor) : Tensor :=
  match bias with
  | none => out
  | some bs => List.zipWith (· + ·) out bs

/-- Modelled from the spec: `torch._scaled_mm`, the native scaled-matmul
primitive, is an external collaborator (spec §6) whose kernel is not part of
this repository; per spec §4.2 it multiplies the 8-bit operands by their
scales and accumulates, which is modelled here as the exact scaled product
`(A * scale_a) @ (B * scale_b)ᵀ + bias` for a vector `A` and weight rows `B`. -/
def scaled_mm (A : Tensor) (B : Mat) (Ascale Bscale : ℚ) (bias : Option Tensor) : Tensor :=
  addBias (B.map fun row => Ascale * Bscale * dot A row) bias

/-- `torch.nn.functional.linear(x, w, bias) = x @ wᵀ + bias` for a vector. -/
def linearFn (x : Tensor) (w : Mat) (bias : Option Tensor) : Tensor :=
  addBias (w.map fun row => dot x row) bias

/-- Lexicographic comparison of CUDA compute capabilities
(`cuda_compute_capability >= (9, 0)`). -/
def capAtLeast (cap threshold : ℕ × ℕ) : Bool :=
  threshold.1 < cap.1 || (cap.1 = threshold.1 && threshold.2 ≤ cap.2)

/-- `fp8_gemm` (lines 50-67): on compute capability ≥ (9,0) dispatch to the
native scaled matmul, otherwise dequantize both operands (multiply by their
scales) and run an ordinary `linear`.  The device capability is passed as a
parameter (`torch.cuda.get_device_capability()` is an environment query). -/
def fp8_gemm (cap : ℕ × ℕ) (A : Tensor) (Ascale : ℚ) (B : Mat) (Bscale : ℚ)
    (bias : Option Tensor) : Tensor :=
  if capAtLeast cap (9, 0) then scaled_mm A B Ascale Bscale bias
  else linearFn (A.map (· * Ascale)) (B.map (List.map (· * Bscale))) bias

/-- The `act_scale` update in `FP8StaticLinearQuantizer.forward` (lines 82-85):
an absent scale is initialized with the observed one, a present scale is
replaced only when strictly exceeded. -/
def observerStep (cur : Option ℚ) (s : ℚ) : ℚ :=
  match cur with
  | none => s
  | some a => if a < s then s else a

/-- The observer state after a sequence of calibration passes whose per-pass
activation scales are `ss` (starting from the constructor state
`self.act_scale = None`). -/
def runCal (ss : List ℚ) : Option ℚ :=
  ss.foldl (fun c s => some (observerStep c s)) none

/-- Maximum of a list of rationals (junk 0 on the empty list). -/
def maxList : List ℚ → ℚ
  | [] => 0
  | x :: xs => xs.foldl max x

namespace FP8DynamicLinear

/-- `FP8DynamicLinear.forward` (lines 135-145): dynamically quantize the
input, then `fp8_gemm` with `bias=None`.  `none` models the error torch
raises when `per_tensor_quantize` is applied to an empty input. -/
def forward (cap : ℕ × ℕ) (qw : Mat) (ws : ℚ) (x : Tensor) : Option Tensor :=
  (per_tensor_quantize x).map fun p => fp8_gemm cap p.1 p.2 qw ws none

end FP8DynamicLinear

namespace FP8StaticLinearQuantizer

/-- `FP8StaticLinearQuantizer.forward` (lines 77-96): dynamically quantize,
update the running `act_scale`, and `fp8_gemm` with the **updated** scale and
`bias=None`.  The mutation of `self.act_scale` is returned as the second
component. -/
def forward (cap : ℕ × ℕ) (qw : Mat) (ws : ℚ) (act : Option ℚ) (x : Tensor) :
    Option (Tensor × ℚ) :=
  (per_tensor_quantize x).map fun p =>
    (fp8_gemm cap p.1 (observerStep act p.2) qw ws none, observerStep act p.2)

end FP8StaticLinearQuantizer

namespace FP8StaticLinear

/-- `FP8StaticLinear.per_tensor_quantize` (lines 106-114):
`(tensor / inv_scale).clamp(min=finfo.min, max=finfo.max).to(float8)`.
The divisor is used verbatim - there is no epsilon clamp here. -/
def per_tensor_quantize (t : Tensor) (inv_scale : ℚ) : Tensor :=
  t.map fun v => castFP8 (fp8clamp (v / inv_scale))

/-- `FP8StaticLinear.forward` (lines 116-126): quantize with the frozen
`act_scale`, then `fp8_gemm` with that same scale and `bias=None`. -/
def forward (cap : ℕ × ℕ) (qw : Mat) (ws : ℚ) (act : ℚ) (x : Tensor) : Tensor :=
  fp8_gemm cap (per_tensor_quantize x act) act qw ws none

end FP8StaticLinear

/-- The quantization step of C10's claim text, written from the claim's own
words: "quantization is computed as clamp(x / act_scale, format_min,
format_max)" (followed by the module's storage cast to float8). -/
def staticQuantFormula (t : Tensor) (s : ℚ) : Tensor :=
  t.map fun v => castFP8 (min (max (v / s) (-448)) 448)

/- ===== The module graph =====

   `model.model` is a tree of named torch modules (`_modules` insertion-ordered
   dicts of distinct, dot-free child names).  The embedding is a rose tree:
   a `Kind` distinguishes the module classes the pipeline inspects
   (`torch.nn.Linear` and the three FP8 classes; `otherK` stands for every
   other module class - embeddings, layer norms, decoder blocks, containers).
   The FP8 classes register only `Parameter`s, never submodules, so the
   pipeline's replacement modules are built with `Children.nil`.
   Trees have no object sharing, so the `memo` deduplication of
   `named_modules` never fires in the modelled domain. -/

inductive Kind where
  | linearK (weight : Mat) (bias : Option Tensor)
  | dynamicK (qweight : Mat) (weight_scale : ℚ)
  | quantK (qweight : Mat) (weight_scale : ℚ) (act_scale : Option ℚ)
  | staticK (qweight : Mat) (weight_scale : ℚ) (act_scale : Option ℚ)
  | otherK

mutual
inductive NNModule where
  | mk (k : Kind) (children : Children)
inductive Children where
  | nil
  | cons (name : String) (child : NNModule) (rest : Children)
end

def NNModule.kind : NNModule → Kind
  | .mk k _ => k

def NNModule.childrenOf : NNModule → Children
  | .mk _ cs => cs

/-- First entry of `_modules` with the given key (Python dict lookup). -/
def lookupChild : Children → String → Option NNModule
  | .nil, _ => none
  | .cons n c rest, a => if n = a then some c else lookupChild rest a

/-- `setattr(parent, a, m)` on the `_modules` dict: rebind an existing key in
place, or append a new key. -/
def bindChild : Children → String → NNModule → Children
  | .nil, a, m => .cons a m .nil
  | .cons n c rest, a, m =>
    if n = a then .cons n m rest else .cons n c (bindChild rest a m)

def hasKey : Children → String → Bool
  | .nil, _ => false
  | .cons n _ rest, a => n = a || hasKey rest a

/-- Keys at this level are pairwise distinct (a Python dict cannot repeat a
key, so every real `_modules` satisfies this). -/
def noDupKeys : Children → Bool
  | .nil => true
  | .cons n _ rest => !hasKey rest n && noDupKeys rest

def entriesOf : Children → List (String × NNModule)
  | .nil => []
  | .cons n c rest => (n, c) :: entriesOf rest

def mapVals (g : NNModule → NNModule) : Children → Children
  | .nil => .nil
  | .cons n c rest => .cons n (g c) (mapVals g rest)

def isNilC : Children → Bool
  | .nil => true
  | .cons _ _ _ => false

mutual
/-- The pairs yielded by `model.model.named_modules()`: the module itself
under its (atomized) dotted prefix, then every child subtree in order.
Names are modelled as lists of dot-free atoms; the dotted string of a path
`p` is `String.intercalate "." p` and the root's name is the empty path
(torch's `""`). -/
def namedModules (pre : List String) : NNModule → List (List String × NNModule)
  | .mk k cs => (pre, .mk k cs) :: namedChildren pre cs
def namedChildren (pre : List String) : Children → List (List String × NNModule)
  | .nil => []
  | .cons n c rest => namedModules (pre ++ [n]) c ++ namedChildren pre rest
end

def mNames (pre : List String) (m : NNModule) : List (List String) :=
  (namedModules pre m).map Prod.fst

/-- The set of dotted module names of the graph (as atom paths). -/
def namesOf (m : NNModule) : List (List String) := mNames [] m

/-- `model.model.get_submodule(path)`: walk the atoms, `none` models the
`AttributeError` raised on an unresolvable path. -/
def getSub : List String → NNModule → Option NNModule
  | [], m => some m
  | a :: p, .mk _ cs =>
    match lookupChild cs a with
    | none => none
    | some c => getSub p c

/-- `get_submodule(parent_path)` followed by `setattr(parent, key, v)`,
expressed as a functional update of the root: walk `p`, then rebind `key`
on the parent reached. -/
def setAt : List String → String → NNModule → NNModule → Option NNModule
  | [], key, v, .mk k cs => some (.mk k (bindChild cs key v))
  | a :: p, key, v, .mk k cs =>
    match lookupChild cs a with
    | none => none
    | some c =>
      match setAt p key v c with
      | none => none
      | some c2 => some (.mk k (bindChild cs a c2))

def emptyName : String := ""

/-- The replacement step of each rewrite loop (lines 154-162, 173-181,
194-202): if the yielded `name` contains a dot, split off the last atom and
rebind it on `get_submodule(parent_name)`; otherwise rebind `name` directly on
the root (for the root itself, `name` is `""` and `child_name` is `""`). -/
def installAt (name : List String) (v : NNModule) (live : NNModule) : Option NNModule :=
  match name with
  | [] => setAt [] emptyName v live
  | a :: p => setAt ((a :: p).dropLast) ((a :: p).getLastD a) v live

/-- Replace the whole subtree at path `q` (used only in specifications of the
pass; `setTop R [] v` replaces the root). -/
def setTop (q : List String) (v : NNModule) (R : NNModule) : Option NNModule :=
  match q with
  | [] => some v
  | a :: p => setAt ((a :: p).dropLast) ((a :: p).getLastD a) v R

def oFold {α : Type} (step : NNModule → α → Option NNModule) : NNModule → List α → Option NNModule
  | r, [] => some r
  | r, x :: xs =>
    match step r x with
    | none => none
    | some r2 => oFold step r2 xs

def installStep (pred : NNModule → Bool) (f : NNModule → NNModule) (live : NNModule)
    (e : List String × NNModule) : Option NNModule :=
  if pred e.2 then installAt e.1 (f e.2) live else some live

/-- One rewrite loop of the pipeline, operationally faithful to the source:
`named_modules()` is a lazy generator iterated while `setattr` mutates the
live graph.  Because every replacement rebinds the name that was just
yielded - a dict-value update at an existing key, which neither resizes any
`_modules` dict nor affects the recursion frames holding the old module
objects - the sequence of yielded pairs is exactly the depth-first
enumeration of the original tree, while each `get_submodule`/`setattr`
resolves against the current (partially rewritten) graph.  The pass is hence
the fold of the replacement steps over `namedModules` of the original tree,
threading the live root. -/
def livePass (pred : NNModule → Bool) (f : NNModule → NNModule) (root : NNModule) : Option NNModule :=
  oFold (installStep pred f) root (namedModules [] root)

/-- Events of a rewrite loop: a pair yielded by the generator, or a
replacement installed into the live graph. -/
inductive Ev where
  | visit (name : List String)
  | install (name : List String)

/-- `livePass` instrumented with its event trace (visits interleaved with the
installs the loop body performs right after each matching yield). -/
def oFoldT (pred : NNModule → Bool) (f : NNModule → NNModule) :
    NNModule → List (List String × NNModule) → Option NNModule × List Ev
  | r, [] => (some r, [])
  | r, e :: es =>
    if pred e.2 then
      match installAt e.1 (f e.2) r with
      | none => (none, [Ev.visit e.1])
      | some r2 =>
        let t := oFoldT pred f r2 es
        (t.1, Ev.visit e.1 :: Ev.install e.1 :: t.2)
    else
      let t := oFoldT pred f r es
      (t.1, Ev.visit e.1 :: t.2)

def passTrace (pred : NNModule → Bool) (f : NNModule → NNModule) (root : NNModule) : List Ev :=
  (oFoldT pred f root (namedModules [] root)).2

/-- Snapshot-then-replace would produce all visits before any install: no
install event is followed by a later visit event. -/
def noVisitAfterInstall (seen : Bool) : List Ev → Bool
  | [] => true
  | .visit _ :: r => !seen && noVisitAfterInstall seen r
  | .install _ :: r => noVisitAfterInstall true r

def visitsBeforeInstalls (l : List Ev) : Bool := noVisitAfterInstall false l

def visitsOf : List Ev → List (List String)
  | [] => []
  | .visit n :: r => n :: visitsOf r
  | .install _ :: r => visitsOf r

mutual
/-- Structural replacement of every matching node (the obvious recursive
specification a pass should implement). -/
def treeMap (pred : NNModule → Bool) (f : NNModule → NNModule) : NNModule → NNModule
  | .mk k cs => if pred (.mk k cs) then f (.mk k cs) else .mk k (treeMapC pred f cs)
def treeMapC (pred : NNModule → Bool) (f : NNModule → NNModule) : Children → Children
  | .nil => .nil
  | .cons n c rest => .cons n (treeMap pred f c) (treeMapC pred f rest)
end

mutual
/-- Well-formedness of a graph for a pass: every `_modules` dict has distinct
keys, and every module matching the pass predicate is childless (true of
`nn.Linear` and of the three FP8 classes, which register no submodules). -/
def okM (pred : NNModule → Bool) : NNModule → Bool
  | .mk k cs => (!pred (.mk k cs) || isNilC cs) && noDupKeys cs && okC pred cs
def okC (pred : NNModule → Bool) : Children → Bool
  | .nil => true
  | .cons _ c rest => okM pred c && okC pred rest
end

/- ===== The three phases ===== -/

/-- `isinstance(linear, torch.nn.Linear)` (line 150). -/
def predLinear : NNModule → Bool
  | .mk (.linearK _ _) _ => true
  | _ => false

/-- `FP8DynamicLinear(per_tensor_quantize(linear.weight))` (lines 152-153):
only the weight is quantized and carried over; the bias and any children of
the original layer are dropped.  (The default arm is unreachable: the factory
is applied only under `predLinear`.) -/
def mkDynamicOf : NNModule → NNModule
  | .mk (.linearK w _) _ => .mk (.dynamicK (ptqMatCore w).1 (ptqMatCore w).2) .nil
  | m => m

/-- `isinstance(dynamic_quant_linear, FP8DynamicLinear)` (line 168). -/
def predDynamic : NNModule → Bool
  | .mk (.dynamicK _ _) _ => true
  | _ => false

/-- `FP8StaticLinearQuantizer(weight, weight_scale)` (lines 170-172): carries
weight and scale; `__init__` sets `self.act_scale = None`. -/
def mkQuantizerOf : NNModule → NNModule
  | .mk (.dynamicK qw ws) _ => .mk (.quantK qw ws none) .nil
  | m => m

/-- `isinstance(quantizer, FP8StaticLinearQuantizer)` (line 189). -/
def predQuantizer : NNModule → Bool
  | .mk (.quantK _ _ _) _ => true
  | _ => false

/-- `FP8StaticLinear(weight, weight_scale, quantizer.act_scale)`
(lines 191-193): the observer's `act_scale` is carried over as-is - when it is
still `None` (never calibrated), `Parameter(None)` silently constructs an
empty parameter and no error is raised, modelled by `act_scale = none`. -/
def mkStaticOf : NNModule → NNModule
  | .mk (.quantK qw ws a) _ => .mk (.staticK qw ws a) .nil
  | m => m

/-- Phase 1, `quantize_weights` (lines 148-162). -/
def quantize_weights (root : NNModule) : Option NNModule :=
  livePass predLinear mkDynamicOf root

/-- The first loop of `quantize_activations` (lines 167-181): replace every
`FP8DynamicLinear` with an `FP8StaticLinearQuantizer`. -/
def actQuantRewrite (root : NNModule) : Option NNModule :=
  livePass predDynamic mkQuantizerOf root

/-- The third loop of `quantize_activations` (lines 188-202): replace every
`FP8StaticLinearQuantizer` with an `FP8StaticLinear`. -/
def freezeRewrite (root : NNModule) : Option NNModule :=
  livePass predQuantizer mkStaticOf root

def calibKind (u : List String → Option ℚ → Option ℚ) (pre : List String) : Kind → Kind
  | .quantK qw ws a => .quantK qw ws (u pre a)
  | k => k

mutual
/-- The calibration loop (lines 184-185), modelled abstractly: the forward
passes mutate nothing in the graph except the `act_scale` attribute of each
`FP8StaticLinearQuantizer` (see `FP8StaticLinearQuantizer.forward`), so the
net effect of calibration is some per-name update `u` of observer scales.
(C4 proves the per-layer update is the running maximum of per-pass scales.) -/
def calibTree (u : List String → Option ℚ → Option ℚ) (pre : List String) : NNModule → NNModule
  | .mk k cs => .mk (calibKind u pre k) (calibChildren u pre cs)
def calibChildren (u : List String → Option ℚ → Option ℚ) (pre : List String) :
    Children → Children
  | .nil => .nil
  | .cons n c rest => .cons n (calibTree u (pre ++ [n]) c) (calibChildren u pre rest)
end

/-- `quantize_activations` (lines 165-202): rewrite to observers, calibrate,
then freeze to static layers. -/
def quantize_activations (u : List String → Option ℚ → Option ℚ) (root : NNModule) :
    Option NNModule :=
  match actQuantRewrite root with
  | none => none
  | some r2 => freezeRewrite (calibTree u [] r2)

mutual
/-- The graph contains an `FP8StaticLinear` whose activation scale is absent
(built from a never-calibrated observer). -/
def hasStaticNoneM : NNModule → Bool
  | .mk (.staticK _ _ none) _ => true
  | .mk _ cs => hasStaticNoneC cs
def hasStaticNoneC : Children → Bool
  | .nil => false
  | .cons _ c rest => hasStaticNoneM c || hasStaticNoneC rest
end

def nmA : String := "a"
def nmB : String := "b"
def nmProj : String := "proj"

/-- A two-layer sample graph: a container root with `nn.Linear` children
`a` and `b` (weights `[[1]]`, no bias). -/
def sampleLin2 : NNModule :=
  .mk .otherK
    (.cons nmA (.mk (.linearK [[1]] none) .nil)
      (.cons nmB (.mk (.linearK [[1]] none) .nil) .nil))

/-- A graph holding one never-calibrated observer: container root with an
`FP8StaticLinearQuantizer` child `proj` whose `act_scale` is still `None`. -/
def sampleUncal : NNModule :=
  .mk .otherK (.cons nmProj (.mk (.quantK [[2]] (1 / 224) none) .nil) .nil)

def appendC : Children → Children → Children
  | .nil, ds => ds
  | .cons n c rest, ds => .cons n c (appendC rest ds)

/-- Fold of `setattr`-at-path steps over (key, module) entries: each step
rebinds `q ++ [key]` in the live root to `g` of the entry's module (the shape
`livePass` takes on the children of an unreplaced node). -/
def setFold (q : List String) (g : NNModule → NNModule) :
    NNModule → List (String × NNModule) → Option NNModule
  | r, [] => some r
  | r, (n, c) :: rest =>
    match setAt q n (g c) r with
    | none => none
    | some r2 => setFold q g r2 rest

def dotSep : String := "."

/-- The dotted rendering of an atomized module path. -/
def dottedNames (m : NNModule) : List String :=
  (namesOf m).map (String.intercalate dotSep)

/-- The order on observer states: an absent scale is below everything. -/
def optLe : Option ℚ → Option ℚ → Prop
  | none, _ => True
  | some _, none => False
  | some a, some b => a ≤ b

/- ===== helper lemmas: foldl min/max bounds and membership ===== -/

theorem castFP8_zero : castFP8 0 = 0 := by
  norm_num [castFP8, castFP8pos, rne]

theorem castFP8_448 : castFP8 448 = 448 := by
  norm_num [castFP8, castFP8pos, binadeExp, rne]

theorem le_foldl_max (l : List ℚ) (a : ℚ) : a ≤ l.foldl max a := by
  induction l generalizing a with
  | nil => exact le_refl a
  | cons x xs ih => exact le_trans (le_max_left a x) (ih (max a x))

theorem mem_le_foldl_max (l : List ℚ) (a v : ℚ) (hv : v ∈ l) : v ≤ l.foldl max a := by
  induction l generalizing a with
  | nil => cases hv
  | cons x xs ih =>
    rw [List.foldl_cons]
    rcases List.mem_cons.mp hv with rfl | h
    · exact le_trans (le_max_right a v) (le_foldl_max xs (max a v))
    · exact ih (max a x) h

theorem foldl_max_mem (l : List ℚ) (a : ℚ) : l.foldl max a ∈ a :: l := by
  induction l generalizing a with
  | nil => exact List.mem_singleton.mpr rfl
  | cons x xs ih =>
    rcases List.mem_cons.mp (ih (max a x)) with h | h
    · rcases max_choice a x with hc | hc
      · exact List.mem_cons.mpr (Or.inl (h.trans hc))
      · exact List.mem_cons.mpr (Or.inr (List.mem_cons.mpr (Or.inl (h.trans hc))))
    · exact List.mem_cons.mpr (Or.inr (List.mem_cons.mpr (Or.inr h)))

theorem foldl_min_le (l : List ℚ) (a : ℚ) : l.foldl min a ≤ a := by
  induction l generalizing a with
  | nil => exact le_refl a
  | cons x xs ih => exact le_trans (ih (min a x)) (min_le_left a x)

theorem foldl_min_le_mem (l : List ℚ) (a v : ℚ) (hv : v ∈ l) : l.foldl min a ≤ v := by
  induction l generalizing a with
  | nil => cases hv
  | cons x xs ih =>
    rw [List.foldl_cons]
    rcases List.mem_cons.mp hv with rfl | h
    · exact le_trans (foldl_min_le xs (min a v)) (min_le_right a v)
    · exact ih (min a x) h

theorem foldl_min_mem (l : List ℚ) (a : ℚ) : l.foldl min a ∈ a :: l := by
  induction l generalizing a with
  | nil => exact List.mem_singleton.mpr rfl
  | cons x xs ih =>
    rcases List.mem_cons.mp (ih (min a x)) with h | h
    · rcases min_choice a x with hc | hc
      · exact List.mem_cons.mpr (Or.inl (h.trans hc))
      · exact List.mem_cons.mpr (Or.inr (List.mem_cons.mpr (Or.inl (h.trans hc))))
    · exact List.mem_cons.mpr (Or.inr (List.mem_cons.mpr (Or.inr h)))

theorem abs_le_amaxCore (t : List ℚ) (v : ℚ) (hv : v ∈ t) : |v| ≤ amaxCore t := by
  match t with
  | x :: xs =>
    have hmn : xs.foldl min x ≤ v := by
      rcases List.mem_cons.mp hv with h | h
      · exact h ▸ foldl_min_le xs x
      · exact foldl_min_le_mem xs x v h
    have hmx : v ≤ xs.foldl max x := by
      rcases List.mem_cons.mp hv with h | h
      · exact h ▸ le_foldl_max xs x
      · exact mem_le_foldl_max xs x v h
    rw [amaxCore]
    refine abs_le.mpr ⟨?_, ?_⟩
    · calc -(max |xs.foldl min x| |xs.foldl max x|) ≤ -|xs.foldl min x| :=
            neg_le_neg (le_max_left _ _)
        _ ≤ xs.foldl min x := neg_abs_le _
        _ ≤ v := hmn
    · calc v ≤ xs.foldl max x := hmx
        _ ≤ |xs.foldl max x| := le_abs_self _
        _ ≤ max |xs.foldl min x| |xs.foldl max x| := le_max_right _ _

theorem amaxCore_attained (t : List ℚ) (h : t ≠ []) : ∃ v ∈ t, |v| = amaxCore t := by
  match t with
  | x :: xs =>
    rw [amaxCore]
    rcases max_choice |xs.foldl min x| |xs.foldl max x| with hc | hc
    · exact ⟨xs.foldl min x, foldl_min_mem xs x, hc.symm⟩
    · exact ⟨xs.foldl max x, foldl_max_mem xs x, hc.symm⟩

/- ===== C2 ===== -/

/-- C2: `per_tensor_quantize` succeeds on every nonempty tensor and returns a
strictly positive scale; the divisor of the raw scale is clamped to at least
1e-12, so no division error can arise; and on an all-zero tensor every element
of the quantized output is zero. -/
theorem per_tensor_quantize_pos_scale (t : List ℚ) (h : t ≠ []) :
    ∃ q s, per_tensor_quantize t = some (q, s) ∧ 0 < s ∧
      fp8Eps ≤ max (amaxCore t) fp8Eps ∧
      ((∀ v ∈ t, v = 0) → ∀ y ∈ q, y = 0) := by
  match t, h with
  | x :: xs, _ =>
    refine ⟨(ptqCore (x :: xs)).1, (ptqCore (x :: xs)).2, rfl, ?_, le_max_right _ _, ?_⟩
    · have hd : (0 : ℚ) < max (amaxCore (x :: xs)) fp8Eps :=
        lt_of_lt_of_le (by norm_num [fp8Eps]) (le_max_right _ _)
      have hraw : 0 < rawScale (x :: xs) := div_pos (by norm_num [fp8Max]) hd
      exact inv_pos.mpr hraw
    · intro hz y hy
      rw [ptqCore] at hy
      rcases List.mem_map.mp hy with ⟨v, hv, rfl⟩
      rw [hz v hv, zero_mul]
      have : fp8clamp 0 = 0 := by norm_num [fp8clamp, fp8Max]
      rw [this, castFP8_zero]

/-- Witness for C2 at the all-zero tensor `[0, 0]`. -/
theorem per_tensor_quantize_pos_scale_witness :
    ∃ q s, per_tensor_quantize [0, 0] = some (q, s) ∧ 0 < s ∧
      fp8Eps ≤ max (amaxCore [0, 0]) fp8Eps ∧
      ((∀ v ∈ ([0, 0] : List ℚ), v = 0) → ∀ y ∈ q, y = 0) :=
  per_tensor_quantize_pos_scale [0, 0] (by simp)

/- ===== C3 ===== -/

/-- C3: the returned scale equals the reciprocal of
`format_max / max(amax, epsilon)` where `amax = max(|min_val|, |max_val|)` is
the absolute maximum over the tensor's elements (bounded by and attained on an
element), and the scenario: an all-2.0 tensor quantizes to scale `1/224` with
every output element saturated at `448`. -/
theorem per_tensor_quantize_scale_eq (t : List ℚ) (h : t ≠ []) :
    ∃ q, per_tensor_quantize t = some (q, (fp8Max / max (amaxCore t) fp8Eps)⁻¹) ∧
      (∀ v ∈ t, |v| ≤ amaxCore t) ∧ (∃ v ∈ t, |v| = amaxCore t) ∧
      per_tensor_quantize [2, 2, 2] = some ([448, 448, 448], 1 / 224) := by
  match t, h with
  | x :: xs, h =>
    refine ⟨(ptqCore (x :: xs)).1, rfl, fun v hv => abs_le_amaxCore _ v hv,
      amaxCore_attained _ h, ?_⟩
    norm_num [per_tensor_quantize, ptqCore, rawScale, amaxCore, fp8Max, fp8Eps,
      castFP8, castFP8pos, binadeExp, rne, fp8clamp]

/-- Witness for C3 at the all-2.0 tensor. -/
theorem per_tensor_quantize_scale_eq_witness :
    ∃ q, per_tensor_quantize [2, 2, 2] =
        some (q, (fp8Max / max (amaxCore [2, 2, 2]) fp8Eps)⁻¹) ∧
      (∀ v ∈ ([2, 2, 2] : List ℚ), |v| ≤ amaxCore [2, 2, 2]) ∧
      (∃ v ∈ ([2, 2, 2] : List ℚ), |v| = amaxCore [2, 2, 2]) ∧
      per_tensor_quantize [2, 2, 2] = some ([448, 448, 448], 1 / 224) :=
  per_tensor_quantize_scale_eq [2, 2, 2] (by simp)

/- ===== C4 ===== -/

theorem observerStep_none (s : ℚ) : observerStep none s = s := rfl

theorem observerStep_some (a s : ℚ) : observerStep (some a) s = max a s := by
  rw [observerStep]
  rcases le_or_lt s a with h | h
  · rw [if_neg (not_lt.mpr h), max_eq_left h]
  · rw [if_pos h, max_eq_right h.le]

theorem foldl_observer_some (l : List ℚ) (a : ℚ) :
    l.foldl (fun c s => some (observerStep c s)) (some a) = some (l.foldl max a) := by
  induction l generalizing a with
  | nil => rfl
  | cons x xs ih => simp only [List.foldl_cons, observerStep_some, ih]

theorem runCal_eq_maxList (ss : List ℚ) (h : ss ≠ []) : runCal ss = some (maxList ss) := by
  match ss, h with
  | a :: l, _ =>
    rw [runCal, maxList, List.foldl_cons]
    exact foldl_observer_some l a

theorem optLe_refl (o : Option ℚ) : optLe o o := by
  cases o with
  | none => trivial
  | some a => exact le_refl a

/-- C4: the observer's running activation scale is, after any nonempty
sequence of calibration passes, exactly the maximum of the per-pass scales;
it is non-decreasing from each pass to the next; the first pass initializes
the absent scale unconditionally; and `FP8StaticLinearQuantizer.forward`
performs exactly this update on the scale returned by `per_tensor_quantize`
(using the updated value in the very gemm of that pass). -/
theorem observer_running_max (ss : List ℚ) (h : ss ≠ []) :
    runCal ss = some (maxList ss) ∧
    (∀ n, optLe (runCal (ss.take n)) (runCal (ss.take (n + 1)))) ∧
    (∀ s : ℚ, observerStep none s = s) ∧
    (∀ cap qw ws act x p, per_tensor_quantize x = some p →
      FP8StaticLinearQuantizer.forward cap qw ws act x =
        some (fp8_gemm cap p.1 (observerStep act p.2) qw ws none, observerStep act p.2)) := by
  refine ⟨runCal_eq_maxList ss h, ?_, fun s => rfl, ?_⟩
  · intro n
    rw [List.take_succ]
    cases hg : ss[n]? with
    | none =>
      simp only [hg, Option.toList, List.append_nil]
      exact optLe_refl _
    | some a =>
      simp only [hg, Option.toList]
      simp only [runCal, List.foldl_append]
      cases hc : List.foldl (fun c s => some (observerStep c s)) none (List.take n ss) with
      | none => trivial
      | some c =>
        rw [List.foldl_cons, List.foldl_nil, observerStep_some]
        exact le_max_left c a
  · intro cap qw ws act x p hp
    rw [FP8StaticLinearQuantizer.forward, hp, Option.map_some']

/-- Witness for C4: the spec scenario, per-pass scales 0.5 then 0.3 leave the
frozen scale at 0.5. -/
theorem observer_running_max_witness :
    runCal [1 / 2, 3 / 10] = some (1 / 2) := by
  have h := (observer_running_max [1 / 2, 3 / 10] (by simp)).1
  have hm : maxList [1 / 2, 3 / 10] = 1 / 2 := by
    rw [maxList, List.foldl_cons, List.foldl_nil]
    exact max_eq_left (by norm_num)
  rw [hm] at h
  exact h

/- ===== C10 ===== -/

/-- C10: `FP8StaticLinear.per_tensor_quantize` computes exactly
`clamp(x / act_scale, format_min, format_max)` (then the storage cast): the
frozen scale is used as divisor verbatim, with no epsilon guard, whereas the
top-level `per_tensor_quantize` clamps its divisor `amax` to at least `1e-12`.
The float behaviour of the unguarded division at `act_scale = 0` (inf/nan
propagation) is outside the exact-arithmetic model; what is verified is the
formula and the structural absence of the guard present in the dynamic path. -/
theorem static_quantize_unguarded :
    (∀ (t : Tensor) (s : ℚ),
      FP8StaticLinear.per_tensor_quantize t s = staticQuantFormula t s) ∧
    (∀ t : List ℚ, fp8Eps ≤ max (amaxCore t) fp8Eps) ∧
    (∀ t : List ℚ, rawScale t = fp8Max / max (amaxCore t) fp8Eps) := by
  refine ⟨?_, fun t => le_max_right _ _, fun t => rfl⟩
  intro t s
  rw [FP8StaticLinear.per_tensor_quantize, staticQuantFormula]
  rfl

/- ===== Lemmas about the rewrite machinery ===== -/

theorem dropLast_append_single (p : List String) (n : String) :
    (p ++ [n]).dropLast = p := by
  simp

theorem getLast_append_single (p : List String) (n : String) (h : p ++ [n] ≠ []) :
    (p ++ [n]).getLast h = n := by
  simp

theorem installAt_append (p : List String) (n : String) (v R : NNModule) :
    installAt (p ++ [n]) v R = setAt p n v R := by
  cases hp : p ++ [n] with
  | nil => exact absurd hp (by simp)
  | cons a q =>
    rw [installAt]
    have h1 : (a :: q).dropLast = p := by rw [← hp, dropLast_append_single]
    have h2 : (a :: q).getLastD a = n := by rw [← hp]; simp
    rw [h1, h2]

theorem setTop_append (p : List String) (n : String) (v R : NNModule) :
    setTop (p ++ [n]) v R = setAt p n v R := by
  cases hp : p ++ [n] with
  | nil => exact absurd hp (by simp)
  | cons a q =>
    rw [setTop]
    have h1 : (a :: q).dropLast = p := by rw [← hp, dropLast_append_single]
    have h2 : (a :: q).getLastD a = n := by rw [← hp]; simp
    rw [h1, h2]

theorem lookupChild_bindChild_same : ∀ (cs : Children) (a : String) (m : NNModule),
    lookupChild (bindChild cs a m) a = some m
  | .nil, a, m => by simp [bindChild, lookupChild]
  | .cons n c rest, a, m => by
    by_cases h : n = a
    · simp [bindChild, lookupChild, h]
    · simp [bindChild, lookupChild, h, lookupChild_bindChild_same rest a m]

theorem lookupChild_bindChild_other : ∀ (cs : Children) (a n2 : String) (m : NNModule),
    n2 ≠ a → lookupChild (bindChild cs a m) n2 = lookupChild cs n2
  | .nil, a, n2, m, h => by simp [bindChild, lookupChild, Ne.symm h]
  | .cons n c rest, a, n2, m, h => by
    by_cases hn : n = a
    · subst hn
      simp [bindChild, lookupChild, Ne.symm h]
    · by_cases hn2 : n = n2
      · simp [bindChild, lookupChild, hn, hn2, h]
      · simp [bindChild, lookupChild, hn, hn2,
          lookupChild_bindChild_other rest a n2 m h]

theorem bindChild_bindChild_same : ∀ (cs : Children) (a : String) (m m2 : NNModule),
    bindChild (bindChild cs a m) a m2 = bindChild cs a m2
  | .nil, a, m, m2 => by simp [bindChild]
  | .cons n c rest, a, m, m2 => by
    by_cases h : n = a
    · simp [bindChild, h]
    · simp [bindChild, h, bindChild_bindChild_same rest a m m2]

theorem bindChild_lookup_self : ∀ (cs : Children) (a : String) (c : NNModule),
    lookupChild cs a = some c → bindChild cs a c = cs
  | .nil, a, c, h => by simp [lookupChild] at h
  | .cons n c2 rest, a, c, h => by
    by_cases hn : n = a
    · rw [lookupChild, if_pos hn, Option.some.injEq] at h
      rw [bindChild, if_pos hn, h]
    · rw [lookupChild, if_neg hn] at h
      rw [bindChild, if_neg hn, bindChild_lookup_self rest a c h]

theorem getSub_append (p q : List String) :
    ∀ m : NNModule, getSub (p ++ q) m = (getSub p m).bind (getSub q) := by
  induction p with
  | nil => intro m; simp [getSub]
  | cons a p2 ih =>
    intro m
    cases m with
    | mk k cs =>
      rw [List.cons_append, getSub, getSub]
      cases lookupChild cs a with
      | none => simp
      | some c => simp [ih c]

/-- Success and effect of `setAt`: if `p ++ [k]` resolves, `setattr` on the
resolved parent succeeds and rebinds exactly that path. -/
theorem setAt_of_getSub (p : List String) (k : String) (v : NNModule) :
    ∀ (R c : NNModule), getSub (p ++ [k]) R = some c →
      ∃ R2, setAt p k v R = some R2 ∧ getSub (p ++ [k]) R2 = some v := by
  induction p with
  | nil =>
    intro R c h
    cases R with
    | mk kk cs =>
      refine ⟨.mk kk (bindChild cs k v), rfl, ?_⟩
      simp [getSub, lookupChild_bindChild_same]
  | cons a p2 ih =>
    intro R c h
    cases R with
    | mk kk cs =>
      rw [List.cons_append, getSub] at h
      cases hl : lookupChild cs a with
      | none => simp [hl] at h
      | some c0 =>
        simp only [hl] at h
        obtain ⟨c2, hset, hget⟩ := ih c0 c h
        refine ⟨.mk kk (bindChild cs a c2), ?_, ?_⟩
        · simp [setAt, hl, hset]
        · rw [List.cons_append, getSub, lookupChild_bindChild_same]
          simpa using hget

/-- Frame property of `setAt`: rebinding key `k` under `p` leaves every
sibling path `p ++ [n2]`, `n2 ≠ k`, unchanged. -/
theorem setAt_frame (p : List String) (k : String) (v : NNModule) :
    ∀ (R R2 : NNModule) (n2 : String), setAt p k v R = some R2 → n2 ≠ k →
      getSub (p ++ [n2]) R2 = getSub (p ++ [n2]) R := by
  induction p with
  | nil =>
    intro R R2 n2 hset hne
    cases R with
    | mk kk cs =>
      rw [setAt, Option.some.injEq] at hset
      rw [← hset]
      simp [getSub, lookupChild_bindChild_other cs k n2 v hne]
  | cons a p2 ih =>
    intro R R2 n2 hset hne
    cases R with
    | mk kk cs =>
      rw [setAt] at hset
      cases hl : lookupChild cs a with
      | none => simp [hl] at hset
      | some c0 =>
        simp only [hl] at hset
        cases hs : setAt p2 k v c0 with
        | none => simp [hs] at hset
        | some c2 =>
          simp only [hs, Option.some.injEq] at hset
          rw [← hset]
          simp only [List.cons_append, getSub, lookupChild_bindChild_same, hl]
          exact ih c0 c2 n2 hs hne

theorem oFold_append {α : Type} (step : NNModule → α → Option NNModule)
    (l1 l2 : List α) : ∀ r, oFold step r (l1 ++ l2) =
      (oFold step r l1).bind (fun r2 => oFold step r2 l2) := by
  induction l1 with
  | nil => intro r; simp [oFold]
  | cons x xs ih =>
    intro r
    rw [List.cons_append, oFold, oFold]
    cases step r x with
    | none => simp
    | some r2 => simp [ih r2]

/- ===== collapsing the fold of installs into a structural map ===== -/

theorem hasKey_appendC : ∀ (xs ys : Children) (a : String),
    hasKey (appendC xs ys) a = (hasKey xs a || hasKey ys a)
  | .nil, ys, a => by simp [appendC, hasKey]
  | .cons n c rest, ys, a => by
    simp [appendC, hasKey, hasKey_appendC rest ys a, Bool.or_assoc]

theorem bindChild_appendC : ∀ (front : Children) (a : String) (c m : NNModule)
    (rest : Children), hasKey front a = false →
    bindChild (appendC front (.cons a c rest)) a m = appendC front (.cons a m rest)
  | .nil, a, c, m, rest, _ => by simp [appendC, bindChild]
  | .cons n c2 fr, a, c, m, rest, h => by
    rw [hasKey, Bool.or_eq_false_iff] at h
    have hn : ¬ n = a := by
      intro e
      exact absurd (decide_eq_true e) (by simpa using h.1)
    rw [appendC, bindChild, if_neg hn, appendC,
      bindChild_appendC fr a c m rest h.2]

theorem appendC_snoc : ∀ (front : Children) (n : String) (x : NNModule)
    (rest : Children),
    appendC front (.cons n x rest) = appendC (appendC front (.cons n x .nil)) rest
  | .nil, n, x, rest => by simp [appendC]
  | .cons n2 c2 fr, n, x, rest => by
    rw [appendC, appendC, appendC, appendC_snoc fr n x rest]

theorem entries_hasKey : ∀ (cs : Children) (e : String × NNModule),
    e ∈ entriesOf cs → hasKey cs e.1 = true
  | .nil, e, h => by simp [entriesOf] at h
  | .cons n c rest, e, h => by
    rw [entriesOf, List.mem_cons] at h
    rcases h with rfl | h
    · simp [hasKey]
    · simp [hasKey, entries_hasKey rest e h]

theorem entries_lookup : ∀ (cs : Children), noDupKeys cs = true →
    ∀ e ∈ entriesOf cs, lookupChild cs e.1 = some e.2
  | .nil, _, e, h => by simp [entriesOf] at h
  | .cons n c rest, hd, e, h => by
    rw [noDupKeys, Bool.and_eq_true, Bool.not_eq_true'] at hd
    rw [entriesOf, List.mem_cons] at h
    rcases h with rfl | h
    · simp [lookupChild]
    · have hne : ¬ n = e.1 := by
        intro he
        rw [he] at hd
        rw [entries_hasKey rest e h] at hd
        exact Bool.noConfusion hd.1
      rw [lookupChild, if_neg hne]
      exact entries_lookup rest hd.2 e h

theorem setFold_lift (q : List String) (g : NNModule → NNModule) (a : String) :
    ∀ (l : List (String × NNModule)) (rk : Kind) (rcs : Children) (c0 : NNModule),
      lookupChild rcs a = some c0 →
      setFold (a :: q) g (.mk rk rcs) l =
        (setFold q g c0 l).map (fun c2 => .mk rk (bindChild rcs a c2)) := by
  intro l
  induction l with
  | nil =>
    intro rk rcs c0 hl
    rw [setFold, setFold, Option.map_some', bindChild_lookup_self rcs a c0 hl]
  | cons e rest ih =>
    intro rk rcs c0 hl
    cases e with
    | mk n c =>
      rw [setFold, setFold, setAt, hl]
      cases hs : setAt q n (g c) c0 with
      | none => simp [hs]
      | some c1 =>
        simp only [hs]
        rw [ih rk (bindChild rcs a c1) c1 (lookupChild_bindChild_same rcs a c1)]
        simp only [bindChild_bindChild_same]

theorem setFold_root (g : NNModule → NNModule) : ∀ (cs front : Children) (k : Kind),
    noDupKeys cs = true → (∀ a, hasKey cs a = true → hasKey front a = false) →
    setFold [] g (.mk k (appendC front cs)) (entriesOf cs) =
      some (.mk k (appendC front (mapVals g cs)))
  | .nil, front, k, _, _ => by rw [entriesOf, mapVals, setFold]
  | .cons n c rest, front, k, hd, hdisj => by
    rw [noDupKeys, Bool.and_eq_true, Bool.not_eq_true'] at hd
    have hfn : hasKey front n = false := hdisj n (by simp [hasKey])
    rw [entriesOf, mapVals, setFold, setAt,
      bindChild_appendC front n c (g c) rest hfn]
    simp only []
    rw [appendC_snoc front n (g c) rest,
      appendC_snoc front n (g c) (mapVals g rest)]
    exact setFold_root g rest (appendC front (.cons n (g c) .nil)) k hd.2
      (by
        intro a ha
        rw [hasKey_appendC, Bool.or_eq_false_iff]
        refine ⟨hdisj a (by simp [hasKey, ha]), ?_⟩
        have hna : ¬ n = a := by
          intro e
          rw [e] at hd
          rw [ha] at hd
          exact Bool.noConfusion hd.1
        simp [hasKey, hna])

theorem setTop_cons (q : List String) (v : NNModule) (rk : Kind) (rcs : Children)
    (a : String) (c0 : NNModule) (hl : lookupChild rcs a = some c0) :
    setTop (a :: q) v (.mk rk rcs) =
      (setTop q v c0).map (fun c2 => .mk rk (bindChild rcs a c2)) := by
  cases q with
  | nil =>
    rw [setTop, setTop, Option.map_some']
    simp [setAt]
  | cons b q2 =>
    rw [setTop, setTop]
    have hdl : (a :: b :: q2).dropLast = a :: (b :: q2).dropLast := rfl
    have hgl : (a :: b :: q2).getLastD a = (b :: q2).getLastD b := rfl
    rw [hdl, hgl, setAt, hl]
    show (match setAt (b :: q2).dropLast ((b :: q2).getLastD b) v c0 with
      | none => none
      | some c2 => some (NNModule.mk rk (bindChild rcs a c2))) =
      Option.map (fun c2 => NNModule.mk rk (bindChild rcs a c2))
        (setAt (b :: q2).dropLast ((b :: q2).getLastD b) v c0)
    cases setAt (b :: q2).dropLast ((b :: q2).getLastD b) v c0 with
    | none => rfl
    | some c2 => rfl

theorem setFold_collapse (g : NNModule → NNModule) : ∀ (q : List String)
    (R : NNModule) (k : Kind) (cs : Children),
    getSub q R = some (.mk k cs) → noDupKeys cs = true →
    setFold q g R (entriesOf cs) = setTop q (.mk k (mapVals g cs)) R := by
  intro q
  induction q with
  | nil =>
    intro R k cs h hd
    rw [getSub, Option.some.injEq] at h
    subst h
    rw [setTop]
    have := setFold_root g cs .nil k hd (by intro a _; rw [hasKey])
    rw [appendC] at this
    rw [this, appendC]
  | cons a q2 ih =>
    intro R k cs h hd
    cases R with
    | mk rk rcs =>
      rw [getSub] at h
      cases hl : lookupChild rcs a with
      | none => simp [hl] at h
      | some c0 =>
        simp only [hl] at h
        rw [setFold_lift q2 g a (entriesOf cs) rk rcs c0 hl,
          ih c0 k cs h hd, setTop_cons q2 (.mk k (mapVals g cs)) rk rcs a c0 hl]

/- ===== the live pass is the structural replacement map ===== -/

theorem oFold_cons {α : Type} (step : NNModule → α → Option NNModule)
    (r : NNModule) (x : α) (xs : List α) :
    oFold step r (x :: xs) = (step r x).bind (fun r2 => oFold step r2 xs) := by
  cases h : step r x with
  | none => rw [oFold, h]; rfl
  | some r2 => rw [oFold, h]; rfl

theorem setFold_cons (q : List String) (g : NNModule → NNModule) (r : NNModule)
    (n : String) (c : NNModule) (rest : List (String × NNModule)) :
    setFold q g r ((n, c) :: rest) =
      (setAt q n (g c) r).bind (fun r2 => setFold q g r2 rest) := by
  cases h : setAt q n (g c) r with
  | none => rw [setFold, h]; rfl
  | some r2 => rw [setFold, h]; rfl

theorem mapVals_treeMapC (pred : NNModule → Bool) (f : NNModule → NNModule) :
    ∀ cs : Children, mapVals (treeMap pred f) cs = treeMapC pred f cs
  | .nil => by rw [mapVals, treeMapC]
  | .cons n c rest => by
    rw [mapVals, treeMapC, mapVals_treeMapC pred f rest]

mutual
theorem procM (pred : NNModule → Bool) (f : NNModule → NNModule) :
    ∀ (t : NNModule) (p : List String) (n : String) (R : NNModule),
      okM pred t = true → getSub (p ++ [n]) R = some t →
      oFold (installStep pred f) R (namedModules (p ++ [n]) t) =
        setAt p n (treeMap pred f t) R
  | .mk k cs, p, n, R, hok, hres => by
    rw [okM, Bool.and_eq_true, Bool.and_eq_true] at hok
    obtain ⟨⟨h1, hdk⟩, hokC⟩ := hok
    cases hp : pred (.mk k cs) with
    | true =>
      have hnil : cs = .nil := by
        rw [hp] at h1
        cases cs with
        | nil => rfl
        | cons a b c2 => simp [isNilC] at h1
      subst hnil
      rw [namedModules, namedChildren, oFold_cons, installStep]
      simp only [hp, if_true]
      rw [installAt_append]
      obtain ⟨R2, hset, _⟩ :=
        setAt_of_getSub p n (f (.mk k .nil)) R (.mk k .nil) hres
      rw [hset, treeMap]
      simp only [hp, if_true]
      rw [hset, Option.some_bind, oFold]
    | false =>
      rw [namedModules, oFold_cons, installStep]
      simp only [hp, Bool.false_eq_true, if_false, Option.some_bind]
      have hres2 : ∀ e ∈ entriesOf cs, getSub ((p ++ [n]) ++ [e.1]) R = some e.2 := by
        intro e he
        rw [getSub_append, hres, Option.some_bind]
        simp [getSub, entries_lookup cs hdk e he]
      rw [procC pred f cs (p ++ [n]) R hokC hdk hres2,
        setFold_collapse (treeMap pred f) (p ++ [n]) R k cs hres hdk,
        setTop_append, treeMap]
      simp only [hp, Bool.false_eq_true, if_false]
      rw [mapVals_treeMapC]

theorem procC (pred : NNModule → Bool) (f : NNModule → NNModule) :
    ∀ (cs : Children) (q : List String) (R : NNModule),
      okC pred cs = true → noDupKeys cs = true →
      (∀ e ∈ entriesOf cs, getSub (q ++ [e.1]) R = some e.2) →
      oFold (installStep pred f) R (namedChildren q cs) =
        setFold q (treeMap pred f) R (entriesOf cs)
  | .nil, q, R, _, _, _ => by rw [namedChildren, entriesOf, oFold, setFold]
  | .cons n2 c rest, q, R, hokC, hdk, hres => by
    rw [okC, Bool.and_eq_true] at hokC
    rw [noDupKeys, Bool.and_eq_true, Bool.not_eq_true'] at hdk
    have hresHead : getSub (q ++ [n2]) R = some c := by
      have := hres (n2, c) (by rw [entriesOf]; exact List.mem_cons_self _ _)
      exact this
    obtain ⟨R2, hset, _⟩ := setAt_of_getSub q n2 (treeMap pred f c) R c hresHead
    have hres2 : ∀ e ∈ entriesOf rest, getSub (q ++ [e.1]) R2 = some e.2 := by
      intro e he
      have hne : e.1 ≠ n2 := by
        intro heq
        have hk := entries_hasKey rest e he
        rw [heq] at hk
        rw [hk] at hdk
        exact Bool.noConfusion hdk.1
      rw [setAt_frame q n2 (treeMap pred f c) R R2 e.1 hset hne]
      exact hres e (by rw [entriesOf]; exact List.mem_cons_of_mem _ he)
    rw [namedChildren, oFold_append,
      procM pred f c q n2 R hokC.1 hresHead, hset, Option.some_bind,
      entriesOf, setFold_cons, hset, Option.some_bind,
      procC pred f rest q R2 hokC.2 hdk.2 hres2]
end

/-- The central equivalence: on a well-formed graph whose root is not itself
replaced, the live iterate-while-mutating pass computes exactly the
structural replacement of every matching module. -/
theorem livePass_eq_treeMap (pred : NNModule → Bool) (f : NNModule → NNModule)
    (t : NNModule) (hok : okM pred t = true) (hroot : pred t = false) :
    livePass pred f t = some (treeMap pred f t) := by
  cases t with
  | mk k cs =>
    rw [okM, Bool.and_eq_true, Bool.and_eq_true] at hok
    obtain ⟨⟨_, hdk⟩, hokC⟩ := hok
    have hres : ∀ e ∈ entriesOf cs, getSub ([] ++ [e.1]) (NNModule.mk k cs) = some e.2 := by
      intro e he
      rw [List.nil_append]
      simp [getSub, entries_lookup cs hdk e he]
    rw [livePass, namedModules, oFold_cons, installStep]
    simp only [hroot, Bool.false_eq_true, if_false, Option.some_bind]
    rw [procC pred f cs [] (.mk k cs) hokC hdk hres,
      setFold_collapse (treeMap pred f) [] (.mk k cs) k cs rfl hdk,
      setTop, treeMap]
    simp only [hroot, Bool.false_eq_true, if_false]
    rw [mapVals_treeMapC]

theorem ne_true_of_false {b : Bool} (h : b = false) : ¬ b = true := by
  subst h
  exact Bool.noConfusion

/- ===== names, matches and lookups through the structural map ===== -/

mutual
theorem mNames_treeMap (pred : NNModule → Bool) (f : NNModule → NNModule)
    (hf : ∀ m, pred m = true → (f m).childrenOf = .nil) :
    ∀ (t : NNModule) (pre : List String), okM pred t = true →
      (namedModules pre (treeMap pred f t)).map Prod.fst =
        (namedModules pre t).map Prod.fst
  | .mk k cs, pre, hok => by
    rw [okM, Bool.and_eq_true, Bool.and_eq_true] at hok
    obtain ⟨⟨h1, _⟩, hokC⟩ := hok
    rw [treeMap]
    cases hp : pred (.mk k cs) with
    | true =>
      have hnil : cs = .nil := by
        rw [hp] at h1
        cases cs with
        | nil => rfl
        | cons a b c2 => simp [isNilC] at h1
      subst hnil
      rw [if_pos rfl]
      cases hft : f (.mk k .nil) with
      | mk k2 cs2 =>
        have : cs2 = .nil := by
          have := hf (.mk k .nil) hp
          rw [hft] at this
          exact this
        subst this
        rw [namedModules, namedModules, namedChildren]
        rfl
    | false =>
      simp only [Bool.false_eq_true, if_false]
      rw [namedModules, namedModules, List.map_cons, List.map_cons,
        cNames_treeMapC pred f hf cs pre hokC]

theorem cNames_treeMapC (pred : NNModule → Bool) (f : NNModule → NNModule)
    (hf : ∀ m, pred m = true → (f m).childrenOf = .nil) :
    ∀ (cs : Children) (pre : List String), okC pred cs = true →
      (namedChildren pre (treeMapC pred f cs)).map Prod.fst =
        (namedChildren pre cs).map Prod.fst
  | .nil, pre, _ => by rw [treeMapC]
  | .cons n c rest, pre, hokC => by
    rw [okC, Bool.and_eq_true] at hokC
    rw [treeMapC, namedChildren, namedChildren, List.map_append, List.map_append,
      mNames_treeMap pred f hf c (pre ++ [n]) hokC.1,
      cNames_treeMapC pred f hf rest pre hokC.2]
end

mutual
theorem mNames_calibTree (u : List String → Option ℚ → Option ℚ) :
    ∀ (t : NNModule) (pre : List String),
      (namedModules pre (calibTree u pre t)).map Prod.fst =
        (namedModules pre t).map Prod.fst
  | .mk k cs, pre => by
    rw [calibTree, namedModules, namedModules, List.map_cons, List.map_cons,
      cNames_calibChildren u cs pre]
theorem cNames_calibChildren (u : List String → Option ℚ → Option ℚ) :
    ∀ (cs : Children) (pre : List String),
      (namedChildren pre (calibChildren u pre cs)).map Prod.fst =
        (namedChildren pre cs).map Prod.fst
  | .nil, pre => by rw [calibChildren]
  | .cons n c rest, pre => by
    rw [calibChildren, namedChildren, namedChildren, List.map_append,
      List.map_append, mNames_calibTree u c (pre ++ [n]),
      cNames_calibChildren u rest pre]
end

mutual
theorem treeMap_noMatch (pred : NNModule → Bool) (f : NNModule → NNModule)
    (hfp : ∀ m, pred m = true → pred (f m) = false)
    (hfc : ∀ m, pred m = true → (f m).childrenOf = .nil)
    (hkind : ∀ (k : Kind) (cs1 cs2 : Children), pred (.mk k cs1) = pred (.mk k cs2)) :
    ∀ (t : NNModule) (pre : List String),
      ∀ e ∈ namedModules pre (treeMap pred f t), pred e.2 = false
  | .mk k cs, pre, e, he => by
    rw [treeMap] at he
    cases hp : pred (.mk k cs) with
    | true =>
      rw [if_pos (by rw [hp])] at he
      cases hft : f (.mk k cs) with
      | mk k2 cs2 =>
        have hnil : cs2 = .nil := by
          have := hfc (.mk k cs) hp
          rw [hft] at this
          exact this
        subst hnil
        rw [hft, namedModules, namedChildren] at he
        rcases List.mem_cons.mp he with rfl | h2
        · have := hfp (.mk k cs) hp
          rw [hft] at this
          exact this
        · cases h2
    | false =>
      rw [if_neg (by rw [hp]; exact Bool.noConfusion)] at he
      rw [namedModules] at he
      rcases List.mem_cons.mp he with rfl | h2
      · rw [hkind k (treeMapC pred f cs) cs]
        exact hp
      · exact treeMapC_noMatch pred f hfp hfc hkind cs pre e h2

theorem treeMapC_noMatch (pred : NNModule → Bool) (f : NNModule → NNModule)
    (hfp : ∀ m, pred m = true → pred (f m) = false)
    (hfc : ∀ m, pred m = true → (f m).childrenOf = .nil)
    (hkind : ∀ (k : Kind) (cs1 cs2 : Children), pred (.mk k cs1) = pred (.mk k cs2)) :
    ∀ (cs : Children) (pre : List String),
      ∀ e ∈ namedChildren pre (treeMapC pred f cs), pred e.2 = false
  | .nil, pre, e, he => by rw [treeMapC, namedChildren] at he; cases he
  | .cons n c rest, pre, e, he => by
    rw [treeMapC, namedChildren] at he
    rcases List.mem_append.mp he with h2 | h2
    · exact treeMap_noMatch pred f hfp hfc hkind c (pre ++ [n]) e h2
    · exact treeMapC_noMatch pred f hfp hfc hkind rest pre e h2
end

theorem oFold_skip (pred : NNModule → Bool) (f : NNModule → NNModule) :
    ∀ (l : List (List String × NNModule)) (R : NNModule),
      (∀ e ∈ l, pred e.2 = false) → oFold (installStep pred f) R l = some R
  | [], R, _ => rfl
  | e :: es, R, h => by
    rw [oFold_cons, installStep, if_neg (by rw [h e (List.mem_cons_self _ _)]; exact Bool.noConfusion),
      Option.some_bind]
    exact oFold_skip pred f es R (fun e2 he2 => h e2 (List.mem_cons_of_mem _ he2))

theorem lookup_treeMapC (pred : NNModule → Bool) (f : NNModule → NNModule) :
    ∀ (cs : Children) (a : String),
      lookupChild (treeMapC pred f cs) a = (lookupChild cs a).map (treeMap pred f)
  | .nil, a => by simp [treeMapC, lookupChild]
  | .cons n c rest, a => by
    rw [treeMapC, lookupChild, lookupChild]
    by_cases h : n = a
    · rw [if_pos h, if_pos h, Option.map_some']
    · rw [if_neg h, if_neg h, lookup_treeMapC pred f rest a]

theorem okC_lookup (pred : NNModule → Bool) :
    ∀ (cs : Children) (a : String) (c : NNModule),
      okC pred cs = true → lookupChild cs a = some c → okM pred c = true
  | .nil, a, c, _, hl => by rw [lookupChild] at hl; cases hl
  | .cons n c2 rest, a, c, hok, hl => by
    rw [okC, Bool.and_eq_true] at hok
    rw [lookupChild] at hl
    by_cases h : n = a
    · rw [if_pos h, Option.some.injEq] at hl
      rw [← hl]
      exact hok.1
    · rw [if_neg h] at hl
      exact okC_lookup pred rest a c hok.2 hl

theorem getSub_treeMap (pred : NNModule → Bool) (f : NNModule → NNModule) :
    ∀ (p : List String) (t m : NNModule), okM pred t = true →
      getSub p t = some m → getSub p (treeMap pred f t) = some (treeMap pred f m) := by
  intro p
  induction p with
  | nil =>
    intro t m _ h
    rw [getSub, Option.some.injEq] at h
    rw [← h, getSub]
  | cons a p2 ih =>
    intro t m hok h
    cases t with
    | mk k cs =>
      rw [okM, Bool.and_eq_true, Bool.and_eq_true] at hok
      obtain ⟨⟨h1, _⟩, hokC⟩ := hok
      rw [getSub] at h
      cases hl : lookupChild cs a with
      | none => simp [hl] at h
      | some c0 =>
        simp only [hl] at h
        cases hp : pred (.mk k cs) with
        | true =>
          have hnil : cs = .nil := by
            rw [hp] at h1
            cases cs with
            | nil => rfl
            | cons x y z => simp [isNilC] at h1
          subst hnil
          rw [lookupChild] at hl
          cases hl
        | false =>
          rw [treeMap, if_neg (by rw [hp]; exact Bool.noConfusion), getSub,
            lookup_treeMapC, hl, Option.map_some']
          simp only []
          exact ih c0 m (okC_lookup pred cs a c0 hokC hl) h

/- ===== the event trace of a pass ===== -/

theorem oFoldT_fst (pred : NNModule → Bool) (f : NNModule → NNModule) :
    ∀ (l : List (List String × NNModule)) (r : NNModule),
      (oFoldT pred f r l).1 = oFold (installStep pred f) r l
  | [], r => rfl
  | e :: es, r => by
    cases hp : pred e.2 with
    | true =>
      cases hi : installAt e.1 (f e.2) r with
      | none => simp [oFoldT, oFold_cons, installStep, hp, hi]
      | some r2 =>
        have ih := oFoldT_fst pred f es r2
        simpa [oFoldT, oFold_cons, installStep, hp, hi] using ih
    | false =>
      have ih := oFoldT_fst pred f es r
      simpa [oFoldT, oFold_cons, installStep, hp] using ih

theorem oFoldT_visits (pred : NNModule → Bool) (f : NNModule → NNModule) :
    ∀ (l : List (List String × NNModule)) (r : NNModule),
      (oFoldT pred f r l).1 ≠ none →
      visitsOf (oFoldT pred f r l).2 = l.map Prod.fst
  | [], r, _ => rfl
  | e :: es, r, h => by
    cases hp : pred e.2 with
    | true =>
      cases hi : installAt e.1 (f e.2) r with
      | none =>
        exfalso
        apply h
        simp [oFoldT, hp, hi]
      | some r2 =>
        have h2 : (oFoldT pred f r2 es).1 ≠ none := by
          intro hnone
          apply h
          simp [oFoldT, hp, hi, hnone]
        have ih := oFoldT_visits pred f es r2 h2
        simp [oFoldT, hp, hi, visitsOf, ih]
    | false =>
      have h2 : (oFoldT pred f r es).1 ≠ none := by
        intro hnone
        apply h
        simp [oFoldT, hp, hnone]
      have ih := oFoldT_visits pred f es r h2
      simp [oFoldT, hp, visitsOf, ih]

/- ===== distinctness of the yielded names ===== -/

mutual
theorem mNames_shift : ∀ (t : NNModule) (pre : List String),
    (namedModules pre t).map Prod.fst =
      ((namedModules [] t).map Prod.fst).map (pre ++ ·)
  | .mk k cs, pre => by
    rw [namedModules, namedModules, List.map_cons, List.map_cons, List.map_cons,
      List.append_nil, cNames_shift cs pre]
theorem cNames_shift : ∀ (cs : Children) (pre : List String),
    (namedChildren pre cs).map Prod.fst =
      ((namedChildren [] cs).map Prod.fst).map (pre ++ ·)
  | .nil, pre => by rw [namedChildren]; rfl
  | .cons n c rest, pre => by
    rw [namedChildren, namedChildren]
    simp only [List.map_append, List.nil_append]
    rw [mNames_shift c (pre ++ [n]), mNames_shift c [n], cNames_shift rest pre]
    congr 1
    simp only [List.map_map]
    apply List.map_congr_left
    intro e _
    simp [List.append_assoc]
end

theorem cNames_head : ∀ (cs : Children) (q : List String),
    q ∈ (namedChildren [] cs).map Prod.fst →
      ∃ a, q.head? = some a ∧ hasKey cs a = true
  | .nil, q, h => by rw [namedChildren] at h; cases h
  | .cons n c rest, q, h => by
    rw [namedChildren] at h
    simp only [List.nil_append, List.map_append, List.mem_append] at h
    rcases h with h | h
    · rw [mNames_shift c [n]] at h
      rcases List.mem_map.mp h with ⟨q2, _, rfl⟩
      exact ⟨n, rfl, by simp [hasKey]⟩
    · obtain ⟨a, ha, hk⟩ := cNames_head rest q h
      exact ⟨a, ha, by simp [hasKey, hk]⟩

mutual
theorem mNames_nodup (pred : NNModule → Bool) :
    ∀ (t : NNModule), okM pred t = true → ((namedModules [] t).map Prod.fst).Nodup
  | .mk k cs, hok => by
    rw [okM, Bool.and_eq_true, Bool.and_eq_true] at hok
    obtain ⟨⟨_, hdk⟩, hokC⟩ := hok
    rw [namedModules, List.map_cons]
    refine List.nodup_cons.mpr ⟨?_, cNames_nodup pred cs hokC hdk⟩
    intro hmem
    obtain ⟨a, ha, _⟩ := cNames_head cs [] hmem
    simp at ha
theorem cNames_nodup (pred : NNModule → Bool) :
    ∀ (cs : Children), okC pred cs = true → noDupKeys cs = true →
      ((namedChildren [] cs).map Prod.fst).Nodup
  | .nil, _, _ => by rw [namedChildren]; exact List.nodup_nil
  | .cons n c rest, hokC, hdk => by
    rw [okC, Bool.and_eq_true] at hokC
    rw [noDupKeys, Bool.and_eq_true, Bool.not_eq_true'] at hdk
    rw [namedChildren]
    simp only [List.nil_append, List.map_append]
    refine List.Nodup.append ?_ (cNames_nodup pred rest hokC.2 hdk.2) ?_
    · rw [mNames_shift c [n]]
      refine List.Nodup.map ?_ (mNames_nodup pred c hokC.1)
      intro q1 q2 he
      simpa using he
    · intro q hq hq2
      rw [mNames_shift c [n]] at hq
      rcases List.mem_map.mp hq with ⟨q2, _, rfl⟩
      obtain ⟨a, ha, hk⟩ := cNames_head rest ([n] ++ q2) hq2
      rw [show ([n] ++ q2).head? = some n from rfl, Option.some.injEq] at ha
      rw [← ha] at hk
      rw [hk] at hdk
      exact Bool.noConfusion hdk.1
end

/- ===== facts about the three replacement factories ===== -/

theorem mkDynamicOf_childless :
    ∀ m, predLinear m = true → (mkDynamicOf m).childrenOf = .nil := by
  intro m hm
  cases m with
  | mk k cs =>
    cases k with
    | linearK w b => rfl
    | dynamicK qw ws => simp [predLinear] at hm
    | quantK qw ws a => simp [predLinear] at hm
    | staticK qw ws a => simp [predLinear] at hm
    | otherK => simp [predLinear] at hm

theorem mkDynamicOf_not_linear :
    ∀ m, predLinear m = true → predLinear (mkDynamicOf m) = false := by
  intro m hm
  cases m with
  | mk k cs =>
    cases k with
    | linearK w b => rfl
    | dynamicK qw ws => simp [predLinear] at hm
    | quantK qw ws a => simp [predLinear] at hm
    | staticK qw ws a => simp [predLinear] at hm
    | otherK => simp [predLinear] at hm

theorem predLinear_kind_only :
    ∀ (k : Kind) (cs1 cs2 : Children), predLinear (.mk k cs1) = predLinear (.mk k cs2) := by
  intro k cs1 cs2
  cases k <;> rfl

theorem mkQuantizerOf_childless :
    ∀ m, predDynamic m = true → (mkQuantizerOf m).childrenOf = .nil := by
  intro m hm
  cases m with
  | mk k cs =>
    cases k with
    | dynamicK qw ws => rfl
    | linearK w b => simp [predDynamic] at hm
    | quantK qw ws a => simp [predDynamic] at hm
    | staticK qw ws a => simp [predDynamic] at hm
    | otherK => simp [predDynamic] at hm

theorem mkStaticOf_childless :
    ∀ m, predQuantizer m = true → (mkStaticOf m).childrenOf = .nil := by
  intro m hm
  cases m with
  | mk k cs =>
    cases k with
    | quantK qw ws a => rfl
    | linearK w b => simp [predQuantizer] at hm
    | dynamicK qw ws => simp [predQuantizer] at hm
    | staticK qw ws a => simp [predQuantizer] at hm
    | otherK => simp [predQuantizer] at hm

/- ===== C6 ===== -/

/-- C6: each of the three phases preserves the list of module names exactly
(hence the set of dotted names): Phase 1 on a graph of childless `nn.Linear`
layers with dict-distinct names, Phase 2 (rewrite to observers plus any
calibration effect `u`), and Phase 3, each produce a graph with exactly the
original names; only the module bound at each name changes. -/
theorem phase_names_preserved :
    (∀ t t2, okM predLinear t = true → predLinear t = false →
      quantize_weights t = some t2 →
      namesOf t2 = namesOf t ∧ dottedNames t2 = dottedNames t) ∧
    (∀ t t2 (u : List String → Option ℚ → Option ℚ),
      okM predDynamic t = true → predDynamic t = false →
      actQuantRewrite t = some t2 →
      namesOf (calibTree u [] t2) = namesOf t ∧
        dottedNames (calibTree u [] t2) = dottedNames t) ∧
    (∀ t t2, okM predQuantizer t = true → predQuantizer t = false →
      freezeRewrite t = some t2 →
      namesOf t2 = namesOf t ∧ dottedNames t2 = dottedNames t) := by
  refine ⟨?_, ?_, ?_⟩
  · intro t t2 hok hroot heq
    have h2 := livePass_eq_treeMap predLinear mkDynamicOf t hok hroot
    rw [quantize_weights, h2, Option.some.injEq] at heq
    subst heq
    have hn : namesOf (treeMap predLinear mkDynamicOf t) = namesOf t :=
      mNames_treeMap predLinear mkDynamicOf mkDynamicOf_childless t [] hok
    exact ⟨hn, by rw [dottedNames, dottedNames, hn]⟩
  · intro t t2 u hok hroot heq
    have h2 := livePass_eq_treeMap predDynamic mkQuantizerOf t hok hroot
    rw [actQuantRewrite, h2, Option.some.injEq] at heq
    subst heq
    have hn : namesOf (calibTree u [] (treeMap predDynamic mkQuantizerOf t)) = namesOf t := by
      have hc := mNames_calibTree u (treeMap predDynamic mkQuantizerOf t) []
      have ht := mNames_treeMap predDynamic mkQuantizerOf mkQuantizerOf_childless t [] hok
      exact hc.trans ht
    exact ⟨hn, by rw [dottedNames, dottedNames, hn]⟩
  · intro t t2 hok hroot heq
    have h2 := livePass_eq_treeMap predQuantizer mkStaticOf t hok hroot
    rw [freezeRewrite, h2, Option.some.injEq] at heq
    subst heq
    have hn : namesOf (treeMap predQuantizer mkStaticOf t) = namesOf t :=
      mNames_treeMap predQuantizer mkStaticOf mkStaticOf_childless t [] hok
    exact ⟨hn, by rw [dottedNames, dottedNames, hn]⟩

/-- Witness for C6: Phase 1 on the concrete two-linear-layer graph. -/
theorem phase_names_preserved_witness :
    namesOf (treeMap predLinear mkDynamicOf sampleLin2) = namesOf sampleLin2 ∧
    dottedNames (treeMap predLinear mkDynamicOf sampleLin2) = dottedNames sampleLin2 :=
  phase_names_preserved.1 sampleLin2 (treeMap predLinear mkDynamicOf sampleLin2)
    (by decide) (by decide)
    (livePass_eq_treeMap predLinear mkDynamicOf sampleLin2 (by decide) (by decide))

/- ===== C7 ===== -/

/-- C7: Phase 1 is idempotent: after one application no module satisfies the
`nn.Linear` predicate any more (every match was replaced by an
`FP8DynamicLinear` and replacements keep their kinds elsewhere), so a second
application of `quantize_weights` replaces nothing and returns the graph
unchanged. -/
theorem quantize_weights_idempotent (t : NNModule) (hok : okM predLinear t = true)
    (hroot : predLinear t = false) :
    ∃ t2, quantize_weights t = some t2 ∧ quantize_weights t2 = some t2 := by
  refine ⟨treeMap predLinear mkDynamicOf t,
    livePass_eq_treeMap predLinear mkDynamicOf t hok hroot, ?_⟩
  rw [quantize_weights, livePass]
  apply oFold_skip
  intro e he
  exact treeMap_noMatch predLinear mkDynamicOf mkDynamicOf_not_linear
    mkDynamicOf_childless predLinear_kind_only t [] e he

/-- Witness for C7 at the concrete two-linear-layer graph. -/
theorem quantize_weights_idempotent_witness :
    ∃ t2, quantize_weights sampleLin2 = some t2 ∧ quantize_weights t2 = some t2 :=
  quantize_weights_idempotent sampleLin2 (by decide) (by decide)

/- ===== C5 ===== -/

/-- C5 counterexample: on a concrete graph with two `nn.Linear` children, the
Phase-1 loop's event trace interleaves installs with later visits (the first
replacement is installed while the generator is still being iterated), so the
claim that the pass first snapshots all (name, module) pairs and only then
installs replacements is false of the code. -/
theorem livePass_installs_during_iteration :
    visitsBeforeInstalls (passTrace predLinear mkDynamicOf sampleLin2) = false := by
  norm_num [passTrace, oFoldT, namedModules, namedChildren, sampleLin2, predLinear,
    mkDynamicOf, installAt, setAt, bindChild, lookupChild, nmA, nmB,
    visitsBeforeInstalls, noVisitAfterInstall, emptyName]

/-- C5 amended: each pass installs replacements during the live traversal,
immediately after the matching module is yielded; nevertheless, because every
install rebinds the name just yielded, the yielded sequence is exactly the
depth-first name list of the original graph - every module is visited exactly
once (the names are distinct) - and the pass computes the same final graph as
snapshot-then-replace (the structural map). -/
theorem livePass_visited_once_equiv (pred : NNModule → Bool) (f : NNModule → NNModule)
    (t : NNModule) (hok : okM pred t = true) (hroot : pred t = false) :
    visitsOf (passTrace pred f t) = namesOf t ∧ (namesOf t).Nodup ∧
    livePass pred f t = some (treeMap pred f t) := by
  have heq := livePass_eq_treeMap pred f t hok hroot
  refine ⟨?_, mNames_nodup pred t hok, heq⟩
  rw [passTrace]
  have hne : (oFoldT pred f t (namedModules [] t)).1 ≠ none := by
    rw [oFoldT_fst]
    rw [show oFold (installStep pred f) t (namedModules [] t) = livePass pred f t from rfl,
      heq]
    exact Option.noConfusion
  rw [oFoldT_visits pred f (namedModules [] t) t hne]
  rfl

/-- Witness for the amended C5 at the concrete two-linear-layer graph. -/
theorem livePass_visited_once_equiv_witness :
    visitsOf (passTrace predLinear mkDynamicOf sampleLin2) = namesOf sampleLin2 ∧
    (namesOf sampleLin2).Nodup ∧
    livePass predLinear mkDynamicOf sampleLin2 =
      some (treeMap predLinear mkDynamicOf sampleLin2) :=
  livePass_visited_once_equiv predLinear mkDynamicOf sampleLin2 (by decide) (by decide)

/- ===== C1 ===== -/

/-- C1 counterexample: Phase 3 applied to a graph holding a never-calibrated
observer (`act_scale` still `None`) succeeds - no exception is raised
(`Parameter(None)` silently builds an empty parameter) - and the resulting
graph contains an `FP8StaticLinear` whose activation scale is absent. -/
theorem freeze_accepts_uncalibrated :
    (freezeRewrite sampleUncal).map hasStaticNoneM = some true := by
  norm_num [freezeRewrite, livePass, sampleUncal, namedModules, namedChildren,
    oFold, installStep, predQuantizer, mkStaticOf, installAt, setAt, bindChild,
    lookupChild, nmProj, hasStaticNoneM, hasStaticNoneC]

/-- C1 amended: Phase 3 performs no calibration check: it replaces every
`FP8StaticLinearQuantizer` - calibrated or not - by an `FP8StaticLinear`
carrying over the observer's optional activation scale verbatim, so an
observer whose scale was never set yields an `FP8StaticLinear` with an absent
(empty) scale, with no error raised. -/
theorem freeze_carries_optional_scale (t : NNModule)
    (hok : okM predQuantizer t = true) (hroot : predQuantizer t = false) :
    freezeRewrite t = some (treeMap predQuantizer mkStaticOf t) ∧
    (∀ (p : List String) (qw : Mat) (ws : ℚ) (a : Option ℚ),
      getSub p t = some (.mk (.quantK qw ws a) .nil) →
      getSub p (treeMap predQuantizer mkStaticOf t) =
        some (.mk (.staticK qw ws a) .nil)) := by
  refine ⟨livePass_eq_treeMap predQuantizer mkStaticOf t hok hroot, ?_⟩
  intro p qw ws a h
  have h2 := getSub_treeMap predQuantizer mkStaticOf p t _ hok h
  rw [h2]
  rfl

/-- Witness for the amended C1: the uncalibrated observer at `proj` becomes a
static layer with an absent scale. -/
theorem freeze_carries_optional_scale_witness :
    freezeRewrite sampleUncal = some (treeMap predQuantizer mkStaticOf sampleUncal) ∧
    getSub [nmProj] (treeMap predQuantizer mkStaticOf sampleUncal) =
      some (.mk (.staticK [[2]] (1 / 224) none) .nil) := by
  have h := freeze_carries_optional_scale sampleUncal (by decide) (by decide)
  exact ⟨h.1, h.2 [nmProj] [[2]] (1 / 224) none rfl⟩

/- ===== C9 ===== -/

/-- C9: every quantized module variant calls `fp8_gemm` with `bias=None`, and
Phase 1's factory never carries the original layer's bias: the
`FP8DynamicLinear` built from a linear layer is the same whatever the bias
was.  The bias argument of `fp8_gemm` is live (a present bias changes the
output), so the discarding is observable. -/
theorem bias_discarded :
    (∀ (w : Mat) (b b2 : Option Tensor) (cs cs2 : Children),
      mkDynamicOf (.mk (.linearK w b) cs) = mkDynamicOf (.mk (.linearK w b2) cs2)) ∧
    (∀ cap qw ws x p, per_tensor_quantize x = some p →
      FP8DynamicLinear.forward cap qw ws x = some (fp8_gemm cap p.1 p.2 qw ws none)) ∧
    (∀ cap qw ws act x, FP8StaticLinear.forward cap qw ws act x =
      fp8_gemm cap (FP8StaticLinear.per_tensor_quantize x act) act qw ws none) ∧
    (∀ cap qw ws act x p, per_tensor_quantize x = some p →
      FP8StaticLinearQuantizer.forward cap qw ws act x =
        some (fp8_gemm cap p.1 (observerStep act p.2) qw ws none, observerStep act p.2)) ∧
    fp8_gemm (8, 0) [1] 1 [[1]] 1 (some [1]) ≠ fp8_gemm (8, 0) [1] 1 [[1]] 1 none := by
  refine ⟨fun w b b2 cs cs2 => rfl, ?_, fun cap qw ws act x => rfl, ?_, ?_⟩
  · intro cap qw ws x p hp
    rw [FP8DynamicLinear.forward, hp, Option.map_some']
  · intro cap qw ws act x p hp
    rw [FP8StaticLinearQuantizer.forward, hp, Option.map_some']
  · norm_num [fp8_gemm, capAtLeast, linearFn, addBias, dot]

/-- Witness for C9 at a concrete input. -/
theorem bias_discarded_witness :
    FP8DynamicLinear.forward (8, 0) [[1]] 1 [1] =
      some (fp8_gemm (8, 0) (ptqCore [1]).1 (ptqCore [1]).2 [[1]] 1 none) :=
  bias_discarded.2.1 (8, 0) [[1]] 1 [1] (ptqCore [1]) rfl
